import Mathlib

/-!
Verification development for the CST visitor module (`src/visitor.rs`).

The module walks a pest concrete syntax tree twice over the same dispatch
skeleton: a reconstruction pass (`VerusVisitor` with the base handler map
built in `HandlerMap::new`) that rebuilds a canonicalized program text, and
an extraction pass (`CoreVerusVisitor` with the combined handler map) that
additionally records a function table (`fn_map`) and a call table
(`fn_calls`) while producing the same text.

A pest `Pair` is embedded as a tree node carrying the rule name (the string
produced by formatting `pair.as_rule()`), the verbatim source slice
(`pair.as_str()`), and the ordered child list (`pair.into_inner()`).
Handler dispatch by `HashMap` lookup over distinct string keys is embedded
as a chain of string comparisons; the registered keys are exactly those
inserted in `HandlerMap::new` plus, for the core visitor, the keys added in
`create_combined_handler_map`.  The `.expect("Function must have a name")`
panic of `CoreVerusVisitor::visit_function` is embedded as an `Except`
error that aborts the traversal.
-/

/-- A pest `Pair`: rule name, verbatim source slice, ordered children. -/
inductive Pair where
  | mk (rule : String) (text : String) (children : List Pair)
deriving Repr

def Pair.rule : Pair → String
  | .mk r _ _ => r

def Pair.text : Pair → String
  | .mk _ t _ => t

def Pair.children : Pair → List Pair
  | .mk _ _ c => c

/-- The comma-separated raw-text loop shared by `visit_param_list` and
`visit_closure_param_list`: before every element except the first, push
the separator, then push the element's raw text. -/
def paramJoin (prog : String) (first : Bool) : List Pair → String
  | [] => prog
  | p :: ps => paramJoin ((if first then prog else prog ++ ", ") ++ p.text) false ps

mutual

/-- `VerusVisitor::visit` with the base handler map of `HandlerMap::new`:
look the rule name up among the registered handlers, fall back to
`default_visit` (leaf: verbatim text plus one space; interior: visit all
children). -/
def VerusVisitor.visit (prog : String) : Pair → String
  | .mk rule txt children =>
    if rule == "verus_macro_use" then
      (VerusVisitor.visit_all (prog ++ "verus!\x7b\n") children) ++ "\x7d\n"
    else if rule == "param_list" then
      (paramJoin (prog ++ "(") true children) ++ ")"
    else if rule == "fn_block_expr" then
      (VerusVisitor.visit_all (prog ++ "\n \x7b") children) ++ "\n \x7d \n"
    else if rule == "closure_param_list" then
      (paramJoin (prog ++ "|") true children) ++ "|"
    else if rule == "comma_delimited_exprs" then
      VerusVisitor.visit_comma_sep prog children
    else if rule == "arg_list" then
      (VerusVisitor.visit_all (prog ++ "(") children) ++ ")"
    else if rule == "COMMENT" then
      prog
    else if children.isEmpty then
      prog ++ txt ++ " "
    else
      VerusVisitor.visit_all prog children

/-- `VerusVisitor::visit_all`: visit each pair in order. -/
def VerusVisitor.visit_all (prog : String) : List Pair → String
  | [] => prog
  | p :: ps => VerusVisitor.visit_all (VerusVisitor.visit prog p) ps

/-- The loop body of `VerusVisitor::visit_comma_delimited_exprs`: visit each
child, then push the separator after it, including after the last one. -/
def VerusVisitor.visit_comma_sep (prog : String) : List Pair → String
  | [] => prog
  | p :: ps => VerusVisitor.visit_comma_sep ((VerusVisitor.visit prog p) ++ ", ") ps

end

/-- `VerusVisitor::default_visit`: a leaf contributes its verbatim text and
one space; an interior node delegates to its children. -/
def VerusVisitor.default_visit (prog : String) (txt : String) (children : List Pair) : String :=
  if children.isEmpty then prog ++ txt ++ " " else VerusVisitor.visit_all prog children

/-- The accumulator `CoreDatum`: program text, function table, call table.
The two hash maps are embedded as total lookup functions; an absent
`fn_calls` entry is the empty list, matching `entry(..).or_insert_with(Vec::new)`. -/
structure CoreDatum where
  program : String
  fn_map : String → Option String
  fn_calls : String → List (List String)

def initDatum : CoreDatum :=
  { program := "", fn_map := fun _ => none, fn_calls := fun _ => [] }

/-- The scanning loop of `CoreVerusVisitor::visit_expr` over the node's
children: an `expr_inner` child that contains a `path_expr_no_generics`
grandchild sets the callee name (without ever resetting it), and an
`arg_list` child sets the argument raw-text list. -/
def scanStep (acc : Option String × Option (List String)) (p : Pair) :
    Option String × Option (List String) :=
  if p.rule == "expr_inner" then
    match p.children.find? (fun q => q.rule == "path_expr_no_generics") with
    | some fp => (some fp.text, acc.2)
    | none => acc
  else if p.rule == "arg_list" then
    (acc.1, some (p.children.map Pair.text))
  else acc

def scanExpr (children : List Pair) : Option String × Option (List String) :=
  children.foldl scanStep (none, none)

mutual

/-- `VerusVisitor::visit` instantiated at `CoreDatum` with the combined
handler map of `CoreVerusVisitor::create_combined_handler_map`: the base
handlers plus `fn`, `expr` and the overriding `verus_macro_use` handler.
The `.expect` panic of `visit_function` is an `Except.error`. -/
def CoreVerusVisitor.visit (d : CoreDatum) : Pair → Except String CoreDatum
  | .mk rule txt children =>
    if rule == "fn" then
      match children.find? (fun p => p.rule == "name") with
      | none => .error "Function must have a name"
      | some np =>
        CoreVerusVisitor.visit_all
          { d with fn_map := fun k => if k == np.text then some txt else d.fn_map k }
          children
    else if rule == "expr" then
      let d2 :=
        match scanExpr children with
        | (some fname, some args) =>
          { d with fn_calls := fun k => if k == fname then d.fn_calls k ++ [args] else d.fn_calls k }
        | _ => d
      if children.isEmpty then
        .ok { d2 with program := d2.program ++ txt ++ " " }
      else
        CoreVerusVisitor.visit_all d2 children
    else if rule == "verus_macro_use" then
      match CoreVerusVisitor.visit_all { d with program := d.program ++ "verus!\x7b\n" } children with
      | .error e => .error e
      | .ok d2 => .ok { d2 with program := d2.program ++ "\x7d\n" }
    else if rule == "param_list" then
      .ok { d with program := (paramJoin (d.program ++ "(") true children) ++ ")" }
    else if rule == "fn_block_expr" then
      match CoreVerusVisitor.visit_all { d with program := d.program ++ "\n \x7b" } children with
      | .error e => .error e
      | .ok d2 => .ok { d2 with program := d2.program ++ "\n \x7d \n" }
    else if rule == "closure_param_list" then
      .ok { d with program := (paramJoin (d.program ++ "|") true children) ++ "|" }
    else if rule == "comma_delimited_exprs" then
      CoreVerusVisitor.visit_comma_sep d children
    else if rule == "arg_list" then
      match CoreVerusVisitor.visit_all { d with program := d.program ++ "(" } children with
      | .error e => .error e
      | .ok d2 => .ok { d2 with program := d2.program ++ ")" }
    else if rule == "COMMENT" then
      .ok d
    else if children.isEmpty then
      .ok { d with program := d.program ++ txt ++ " " }
    else
      CoreVerusVisitor.visit_all d children

/-- `CoreVerusVisitor::visit_all`, the public entry point: build the
combined handler map afresh and visit each pair in order, aborting on the
first error. -/
def CoreVerusVisitor.visit_all (d : CoreDatum) : List Pair → Except String CoreDatum
  | [] => .ok d
  | p :: ps =>
    match CoreVerusVisitor.visit d p with
    | .error e => .error e
    | .ok d2 => CoreVerusVisitor.visit_all d2 ps

/-- The comma-delimited-expressions loop at `CoreDatum`. -/
def CoreVerusVisitor.visit_comma_sep (d : CoreDatum) : List Pair → Except String CoreDatum
  | [] => .ok d
  | p :: ps =>
    match CoreVerusVisitor.visit d p with
    | .error e => .error e
    | .ok d2 => CoreVerusVisitor.visit_comma_sep { d2 with program := d2.program ++ ", " } ps

end

/-- `VerusVisitor::default_visit` at `CoreDatum` (always succeeds). -/
def CoreVerusVisitor.default_visit (d : CoreDatum) (txt : String) (children : List Pair) :
    Except String CoreDatum :=
  if children.isEmpty then
    .ok { d with program := d.program ++ txt ++ " " }
  else
    CoreVerusVisitor.visit_all d children

mutual

/-- Whether a node with the given rule name occurs anywhere in the tree. -/
def containsRule (r : String) : Pair → Bool
  | .mk rule _ children => rule == r || containsRuleL r children

def containsRuleL (r : String) : List Pair → Bool
  | [] => false
  | p :: ps => containsRule r p || containsRuleL r ps

end

mutual

/-- Every `fn` node in the tree has a `name` child. -/
def wellNamed : Pair → Bool
  | .mk rule _ children =>
    (rule != "fn" || (children.find? (fun p => p.rule == "name")).isSome) && wellNamedL children

def wellNamedL : List Pair → Bool
  | [] => true
  | p :: ps => wellNamed p && wellNamedL ps

end

/-- Plain concatenation of a list of strings. -/
def concatAll : List String → String
  | [] => ""
  | s :: ss => s ++ concatAll ss

/-- Separator-joined concatenation (no trailing separator). -/
def sepJoin (sep : String) : List String → String
  | [] => ""
  | [x] => x
  | x :: y :: ys => x ++ sep ++ sepJoin sep (y :: ys)

/-- Children of the call expression `bar(1, 2)` as the pest grammar shapes
them: an `expr_inner` holding the callee path and an `arg_list` holding the
raw argument texts. -/
def barChA : List Pair :=
  [.mk "expr_inner" "bar" [.mk "path_expr_no_generics" "bar" []],
   .mk "arg_list" "(1, 2)" [.mk "literal_expr" "1" [], .mk "literal_expr" "2" []]]

/-- Children of the call expression `bar(x, y, z)`. -/
def barChB : List Pair :=
  [.mk "expr_inner" "bar" [.mk "path_expr_no_generics" "bar" []],
   .mk "arg_list" "(x, y, z)"
     [.mk "literal_expr" "x" [], .mk "literal_expr" "y" [], .mk "literal_expr" "z" []]]

def barCallA : Pair := .mk "expr" "bar(1, 2)" barChA

def barCallB : Pair := .mk "expr" "bar(x, y, z)" barChB

/-- The accumulator state after extracting `bar(1, 2)` from the empty
state: one recorded call site and the reconstructed text of the subtree. -/
def barDatumA : CoreDatum :=
  { program := "bar (1 2 )", fn_map := fun _ => none,
    fn_calls := fun k => if k == "bar" then [["1", "2"]] else [] }
theorem visit_macro_eq (prog t : String) (ch : List Pair) :
    VerusVisitor.visit prog (.mk "verus_macro_use" t ch) =
      (VerusVisitor.visit_all (prog ++ "verus!\x7b\n") ch) ++ "\x7d\n" := by
  simp [VerusVisitor.visit]

theorem visit_param_eq (prog t : String) (ch : List Pair) :
    VerusVisitor.visit prog (.mk "param_list" t ch) =
      (paramJoin (prog ++ "(") true ch) ++ ")" := by
  simp [VerusVisitor.visit]

theorem visit_fn_block_eq (prog t : String) (ch : List Pair) :
    VerusVisitor.visit prog (.mk "fn_block_expr" t ch) =
      (VerusVisitor.visit_all (prog ++ "\n \x7b") ch) ++ "\n \x7d \n" := by
  simp [VerusVisitor.visit]

theorem visit_closure_eq (prog t : String) (ch : List Pair) :
    VerusVisitor.visit prog (.mk "closure_param_list" t ch) =
      (paramJoin (prog ++ "|") true ch) ++ "|" := by
  simp [VerusVisitor.visit]

theorem visit_comma_eq (prog t : String) (ch : List Pair) :
    VerusVisitor.visit prog (.mk "comma_delimited_exprs" t ch) =
      VerusVisitor.visit_comma_sep prog ch := by
  simp [VerusVisitor.visit]

theorem visit_arg_eq (prog t : String) (ch : List Pair) :
    VerusVisitor.visit prog (.mk "arg_list" t ch) =
      (VerusVisitor.visit_all (prog ++ "(") ch) ++ ")" := by
  simp [VerusVisitor.visit]

theorem visit_comment_eq (prog t : String) (ch : List Pair) :
    VerusVisitor.visit prog (.mk "COMMENT" t ch) = prog := by
  simp [VerusVisitor.visit]

theorem visit_default_eq (prog rule t : String) (ch : List Pair)
    (h1 : rule ≠ "verus_macro_use") (h2 : rule ≠ "param_list")
    (h3 : rule ≠ "fn_block_expr") (h4 : rule ≠ "closure_param_list")
    (h5 : rule ≠ "comma_delimited_exprs") (h6 : rule ≠ "arg_list")
    (h7 : rule ≠ "COMMENT") :
    VerusVisitor.visit prog (.mk rule t ch) = VerusVisitor.default_visit prog t ch := by
  simp [VerusVisitor.visit, VerusVisitor.default_visit, h1, h2, h3, h4, h5, h6, h7]

theorem visit_all_nil (prog : String) : VerusVisitor.visit_all prog [] = prog := by
  simp [VerusVisitor.visit_all]

theorem visit_all_cons (prog : String) (p : Pair) (ps : List Pair) :
    VerusVisitor.visit_all prog (p :: ps) =
      VerusVisitor.visit_all (VerusVisitor.visit prog p) ps := by
  simp [VerusVisitor.visit_all]

theorem visit_comma_nil (prog : String) : VerusVisitor.visit_comma_sep prog [] = prog := by
  simp [VerusVisitor.visit_comma_sep]

theorem visit_comma_cons (prog : String) (p : Pair) (ps : List Pair) :
    VerusVisitor.visit_comma_sep prog (p :: ps) =
      VerusVisitor.visit_comma_sep ((VerusVisitor.visit prog p) ++ ", ") ps := by
  simp [VerusVisitor.visit_comma_sep]

theorem paramJoin_shift (a : String) : ∀ (ps : List Pair) (prog : String) (first : Bool),
    paramJoin (a ++ prog) first ps = a ++ paramJoin prog first ps := by
  intro ps
  induction ps with
  | nil => intro prog first; simp [paramJoin]
  | cons p ps ih =>
    intro prog first
    cases first with
    | true =>
      show paramJoin ((a ++ prog) ++ p.text) false ps = a ++ paramJoin (prog ++ p.text) false ps
      rw [String.append_assoc a prog p.text]
      exact ih (prog ++ p.text) false
    | false =>
      show paramJoin (((a ++ prog) ++ ", ") ++ p.text) false ps =
        a ++ paramJoin ((prog ++ ", ") ++ p.text) false ps
      rw [String.append_assoc a prog ", ", String.append_assoc a (prog ++ ", ") p.text]
      exact ih ((prog ++ ", ") ++ p.text) false

mutual

theorem visit_shift (a : String) (prog : String) (p : Pair) :
    VerusVisitor.visit (a ++ prog) p = a ++ VerusVisitor.visit prog p := by
  cases p with
  | mk rule txt ch =>
    by_cases h1 : rule = "verus_macro_use"
    · subst h1
      rw [visit_macro_eq, visit_macro_eq, String.append_assoc a prog "verus!\x7b\n",
        visit_all_shift a (prog ++ "verus!\x7b\n") ch,
        String.append_assoc a (VerusVisitor.visit_all (prog ++ "verus!\x7b\n") ch) "\x7d\n"]
    · by_cases h2 : rule = "param_list"
      · subst h2
        rw [visit_param_eq, visit_param_eq, String.append_assoc a prog "(",
          paramJoin_shift a ch (prog ++ "(") true,
          String.append_assoc a (paramJoin (prog ++ "(") true ch) ")"]
      · by_cases h3 : rule = "fn_block_expr"
        · subst h3
          rw [visit_fn_block_eq, visit_fn_block_eq, String.append_assoc a prog "\n \x7b",
            visit_all_shift a (prog ++ "\n \x7b") ch,
            String.append_assoc a (VerusVisitor.visit_all (prog ++ "\n \x7b") ch) "\n \x7d \n"]
        · by_cases h4 : rule = "closure_param_list"
          · subst h4
            rw [visit_closure_eq, visit_closure_eq, String.append_assoc a prog "|",
              paramJoin_shift a ch (prog ++ "|") true,
              String.append_assoc a (paramJoin (prog ++ "|") true ch) "|"]
          · by_cases h5 : rule = "comma_delimited_exprs"
            · subst h5
              rw [visit_comma_eq, visit_comma_eq]
              exact visit_comma_shift a prog ch
            · by_cases h6 : rule = "arg_list"
              · subst h6
                rw [visit_arg_eq, visit_arg_eq, String.append_assoc a prog "(",
                  visit_all_shift a (prog ++ "(") ch,
                  String.append_assoc a (VerusVisitor.visit_all (prog ++ "(") ch) ")"]
              · by_cases h7 : rule = "COMMENT"
                · subst h7
                  rw [visit_comment_eq, visit_comment_eq]
                · rw [visit_default_eq (a ++ prog) rule txt ch h1 h2 h3 h4 h5 h6 h7,
                    visit_default_eq prog rule txt ch h1 h2 h3 h4 h5 h6 h7]
                  unfold VerusVisitor.default_visit
                  by_cases h8 : ch.isEmpty
                  · rw [if_pos h8, if_pos h8, String.append_assoc a prog txt,
                      String.append_assoc a (prog ++ txt) " "]
                  · rw [if_neg h8, if_neg h8]
                    exact visit_all_shift a prog ch
termination_by sizeOf p

theorem visit_all_shift (a : String) (prog : String) (ps : List Pair) :
    VerusVisitor.visit_all (a ++ prog) ps = a ++ VerusVisitor.visit_all prog ps := by
  cases ps with
  | nil => rw [visit_all_nil, visit_all_nil]
  | cons p ps =>
    rw [visit_all_cons, visit_all_cons, visit_shift a prog p,
      visit_all_shift a (VerusVisitor.visit prog p) ps]
termination_by sizeOf ps

theorem visit_comma_shift (a : String) (prog : String) (ps : List Pair) :
    VerusVisitor.visit_comma_sep (a ++ prog) ps = a ++ VerusVisitor.visit_comma_sep prog ps := by
  cases ps with
  | nil => rw [visit_comma_nil, visit_comma_nil]
  | cons p ps =>
    rw [visit_comma_cons, visit_comma_cons, visit_shift a prog p,
      String.append_assoc a (VerusVisitor.visit prog p) ", ",
      visit_comma_shift a ((VerusVisitor.visit prog p) ++ ", ") ps]
termination_by sizeOf ps

end

theorem core_fn_none_eq (d : CoreDatum) (t : String) (ch : List Pair)
    (h : ch.find? (fun p => p.rule == "name") = none) :
    CoreVerusVisitor.visit d (.mk "fn" t ch) = .error "Function must have a name" := by
  simp [CoreVerusVisitor.visit, h]

theorem core_fn_some_eq (d : CoreDatum) (t : String) (ch : List Pair) (np : Pair)
    (h : ch.find? (fun p => p.rule == "name") = some np) :
    CoreVerusVisitor.visit d (.mk "fn" t ch) =
      CoreVerusVisitor.visit_all
        { d with fn_map := fun k => if k == np.text then some t else d.fn_map k } ch := by
  simp [CoreVerusVisitor.visit, h]

theorem core_expr_rec_eq (d : CoreDatum) (t : String) (ch : List Pair)
    (f : String) (args : List String) (h : scanExpr ch = (some f, some args)) :
    CoreVerusVisitor.visit d (.mk "expr" t ch) =
      CoreVerusVisitor.default_visit
        { d with fn_calls := fun k => if k == f then d.fn_calls k ++ [args] else d.fn_calls k }
        t ch := by
  simp [CoreVerusVisitor.visit, CoreVerusVisitor.default_visit, h]

theorem core_expr_skip_eq (d : CoreDatum) (t : String) (ch : List Pair)
    (h : (scanExpr ch).1 = none ∨ (scanExpr ch).2 = none) :
    CoreVerusVisitor.visit d (.mk "expr" t ch) = CoreVerusVisitor.default_visit d t ch := by
  rcases hsc : scanExpr ch with ⟨o1, o2⟩
  rw [hsc] at h
  cases o1 with
  | none =>
    cases o2 with
    | none => simp [CoreVerusVisitor.visit, CoreVerusVisitor.default_visit, hsc]
    | some a => simp [CoreVerusVisitor.visit, CoreVerusVisitor.default_visit, hsc]
  | some f =>
    cases o2 with
    | none => simp [CoreVerusVisitor.visit, CoreVerusVisitor.default_visit, hsc]
    | some a => simp at h

theorem core_macro_eq (d : CoreDatum) (t : String) (ch : List Pair) :
    CoreVerusVisitor.visit d (.mk "verus_macro_use" t ch) =
      (match CoreVerusVisitor.visit_all { d with program := d.program ++ "verus!\x7b\n" } ch with
       | .error e => .error e
       | .ok d2 => .ok { d2 with program := d2.program ++ "\x7d\n" }) := by
  simp [CoreVerusVisitor.visit]

theorem core_param_eq (d : CoreDatum) (t : String) (ch : List Pair) :
    CoreVerusVisitor.visit d (.mk "param_list" t ch) =
      .ok { d with program := (paramJoin (d.program ++ "(") true ch) ++ ")" } := by
  simp [CoreVerusVisitor.visit]

theorem core_fn_block_eq (d : CoreDatum) (t : String) (ch : List Pair) :
    CoreVerusVisitor.visit d (.mk "fn_block_expr" t ch) =
      (match CoreVerusVisitor.visit_all { d with program := d.program ++ "\n \x7b" } ch with
       | .error e => .error e
       | .ok d2 => .ok { d2 with program := d2.program ++ "\n \x7d \n" }) := by
  simp [CoreVerusVisitor.visit]

theorem core_closure_eq (d : CoreDatum) (t : String) (ch : List Pair) :
    CoreVerusVisitor.visit d (.mk "closure_param_list" t ch) =
      .ok { d with program := (paramJoin (d.program ++ "|") true ch) ++ "|" } := by
  simp [CoreVerusVisitor.visit]

theorem core_comma_eq (d : CoreDatum) (t : String) (ch : List Pair) :
    CoreVerusVisitor.visit d (.mk "comma_delimited_exprs" t ch) =
      CoreVerusVisitor.visit_comma_sep d ch := by
  simp [CoreVerusVisitor.visit]

theorem core_arg_eq (d : CoreDatum) (t : String) (ch : List Pair) :
    CoreVerusVisitor.visit d (.mk "arg_list" t ch) =
      (match CoreVerusVisitor.visit_all { d with program := d.program ++ "(" } ch with
       | .error e => .error e
       | .ok d2 => .ok { d2 with program := d2.program ++ ")" }) := by
  simp [CoreVerusVisitor.visit]

theorem core_comment_eq (d : CoreDatum) (t : String) (ch : List Pair) :
    CoreVerusVisitor.visit d (.mk "COMMENT" t ch) = .ok d := by
  simp [CoreVerusVisitor.visit]

theorem core_default_eq (d : CoreDatum) (rule t : String) (ch : List Pair)
    (k1 : rule ≠ "fn") (k2 : rule ≠ "expr")
    (h1 : rule ≠ "verus_macro_use") (h2 : rule ≠ "param_list")
    (h3 : rule ≠ "fn_block_expr") (h4 : rule ≠ "closure_param_list")
    (h5 : rule ≠ "comma_delimited_exprs") (h6 : rule ≠ "arg_list")
    (h7 : rule ≠ "COMMENT") :
    CoreVerusVisitor.visit d (.mk rule t ch) = CoreVerusVisitor.default_visit d t ch := by
  simp [CoreVerusVisitor.visit, CoreVerusVisitor.default_visit,
    k1, k2, h1, h2, h3, h4, h5, h6, h7]

theorem core_visit_all_nil (d : CoreDatum) : CoreVerusVisitor.visit_all d [] = .ok d := by
  simp [CoreVerusVisitor.visit_all]

theorem core_visit_all_cons (d : CoreDatum) (p : Pair) (ps : List Pair) :
    CoreVerusVisitor.visit_all d (p :: ps) =
      (match CoreVerusVisitor.visit d p with
       | .error e => .error e
       | .ok d2 => CoreVerusVisitor.visit_all d2 ps) := by
  simp [CoreVerusVisitor.visit_all]

theorem core_comma_nil (d : CoreDatum) : CoreVerusVisitor.visit_comma_sep d [] = .ok d := by
  simp [CoreVerusVisitor.visit_comma_sep]

theorem core_comma_cons (d : CoreDatum) (p : Pair) (ps : List Pair) :
    CoreVerusVisitor.visit_comma_sep d (p :: ps) =
      (match CoreVerusVisitor.visit d p with
       | .error e => .error e
       | .ok d2 => CoreVerusVisitor.visit_comma_sep { d2 with program := d2.program ++ ", " } ps) := by
  simp [CoreVerusVisitor.visit_comma_sep]

theorem containsRule_mk (r rule txt : String) (ch : List Pair) :
    containsRule r (.mk rule txt ch) = ((rule == r) || containsRuleL r ch) := by
  simp [containsRule]

theorem containsRuleL_nil (r : String) : containsRuleL r [] = false := by
  simp [containsRuleL]

theorem containsRuleL_cons (r : String) (p : Pair) (ps : List Pair) :
    containsRuleL r (p :: ps) = (containsRule r p || containsRuleL r ps) := by
  simp [containsRuleL]

theorem wellNamed_mk (rule txt : String) (ch : List Pair) :
    wellNamed (.mk rule txt ch) =
      ((rule != "fn" || (ch.find? (fun p => p.rule == "name")).isSome) && wellNamedL ch) := by
  simp [wellNamed]

theorem wellNamedL_cons (p : Pair) (ps : List Pair) :
    wellNamedL (p :: ps) = (wellNamed p && wellNamedL ps) := by
  simp [wellNamedL]

theorem orFalseLeft {a b : Bool} (h : (a || b) = false) : a = false := by
  cases a <;> simp_all

theorem orFalseRight {a b : Bool} (h : (a || b) = false) : b = false := by
  cases a <;> cases b <;> simp_all

theorem containsRuleL_of_mk (r rule txt : String) (ch : List Pair)
    (h : containsRule r (.mk rule txt ch) = false) : containsRuleL r ch = false := by
  rw [containsRule_mk] at h
  exact orFalseRight h

theorem isEmpty_false_of_find (ch : List Pair) (np : Pair)
    (h : ch.find? (fun p => p.rule == "name") = some np) : ¬(ch.isEmpty = true) := by
  cases ch with
  | nil => simp at h
  | cons a b => simp [List.isEmpty]

mutual

theorem core_sim_visit (d : CoreDatum) (p : Pair) :
    ∀ r : CoreDatum, CoreVerusVisitor.visit d p = .ok r →
      r.program = VerusVisitor.visit d.program p
      ∧ (containsRule "fn" p = false → r.fn_map = d.fn_map)
      ∧ (containsRule "expr" p = false → r.fn_calls = d.fn_calls) := by
  cases p with
  | mk rule txt ch =>
    intro r h
    by_cases k1 : rule = "fn"
    · subst k1
      cases hf : ch.find? (fun q => q.rule == "name") with
      | none => rw [core_fn_none_eq d txt ch hf] at h; simp at h
      | some np =>
        rw [core_fn_some_eq d txt ch np hf] at h
        have ih := core_sim_all _ ch r h
        refine ⟨?_, ?_, ?_⟩
        · rw [visit_default_eq d.program "fn" txt ch (by decide) (by decide) (by decide)
            (by decide) (by decide) (by decide) (by decide)]
          unfold VerusVisitor.default_visit
          rw [if_neg (isEmpty_false_of_find ch np hf)]
          exact ih.1
        · intro hc
          rw [containsRule_mk] at hc
          simp at hc
        · intro hc
          exact ih.2.2 (containsRuleL_of_mk "expr" "fn" txt ch hc)
    · by_cases k2 : rule = "expr"
      · subst k2
        rcases hsc : scanExpr ch with ⟨o1, o2⟩
        have hrec : ∀ d2 : CoreDatum, d2.program = d.program → d2.fn_map = d.fn_map →
            CoreVerusVisitor.default_visit d2 txt ch = .ok r →
            r.program = VerusVisitor.visit d.program (.mk "expr" txt ch)
            ∧ (containsRule "fn" (.mk "expr" txt ch) = false → r.fn_map = d.fn_map) := by
          intro d2 hp hm h2
          unfold CoreVerusVisitor.default_visit at h2
          rw [visit_default_eq d.program "expr" txt ch (by decide) (by decide) (by decide)
            (by decide) (by decide) (by decide) (by decide)]
          unfold VerusVisitor.default_visit
          by_cases he : ch.isEmpty = true
          · rw [if_pos he] at h2
            rw [if_pos he]
            simp only [Except.ok.injEq] at h2
            subst h2
            exact ⟨by rw [← hp], fun _ => hm⟩
          · rw [if_neg he] at h2
            rw [if_neg he]
            have ih := core_sim_all d2 ch r h2
            refine ⟨by rw [ih.1, hp], fun hc => ?_⟩
            rw [ih.2.1 (containsRuleL_of_mk "fn" "expr" txt ch hc), hm]
        cases o1 with
        | some f =>
          cases o2 with
          | some args =>
            rw [core_expr_rec_eq d txt ch f args hsc] at h
            have hfc := hrec
              { d with fn_calls :=
                  fun k => if k == f then d.fn_calls k ++ [args] else d.fn_calls k }
              rfl rfl h
            refine ⟨hfc.1, hfc.2, ?_⟩
            · intro hc
              rw [containsRule_mk] at hc
              simp at hc
          | none =>
            rw [core_expr_skip_eq d txt ch (by rw [hsc]; exact Or.inr rfl)] at h
            have hfc := hrec d rfl rfl h
            refine ⟨hfc.1, hfc.2, ?_⟩
            · intro hc
              rw [containsRule_mk] at hc
              simp at hc
        | none =>
          rw [core_expr_skip_eq d txt ch (by rw [hsc]; exact Or.inl rfl)] at h
          have hfc := hrec d rfl rfl h
          refine ⟨hfc.1, hfc.2, ?_⟩
          · intro hc
            rw [containsRule_mk] at hc
            simp at hc
      · by_cases h1 : rule = "verus_macro_use"
        · subst h1
          rw [core_macro_eq] at h
          cases hv : CoreVerusVisitor.visit_all
              { d with program := d.program ++ "verus!\x7b\n" } ch with
          | error e => rw [hv] at h; simp at h
          | ok d2 =>
            rw [hv] at h
            simp only [Except.ok.injEq] at h
            subst h
            have ih := core_sim_all _ ch d2 hv
            refine ⟨?_, ?_, ?_⟩
            · rw [visit_macro_eq]
              show d2.program ++ "\x7d\n" = _
              rw [ih.1]
            · intro hc
              exact ih.2.1 (containsRuleL_of_mk "fn" "verus_macro_use" txt ch hc)
            · intro hc
              exact ih.2.2 (containsRuleL_of_mk "expr" "verus_macro_use" txt ch hc)
        · by_cases h2 : rule = "param_list"
          · subst h2
            rw [core_param_eq] at h
            simp only [Except.ok.injEq] at h
            subst h
            exact ⟨by rw [visit_param_eq], fun _ => rfl, fun _ => rfl⟩
          · by_cases h3 : rule = "fn_block_expr"
            · subst h3
              rw [core_fn_block_eq] at h
              cases hv : CoreVerusVisitor.visit_all
                  { d with program := d.program ++ "\n \x7b" } ch with
              | error e => rw [hv] at h; simp at h
              | ok d2 =>
                rw [hv] at h
                simp only [Except.ok.injEq] at h
                subst h
                have ih := core_sim_all _ ch d2 hv
                refine ⟨?_, ?_, ?_⟩
                · rw [visit_fn_block_eq]
                  show d2.program ++ "\n \x7d \n" = _
                  rw [ih.1]
                · intro hc
                  exact ih.2.1 (containsRuleL_of_mk "fn" "fn_block_expr" txt ch hc)
                · intro hc
                  exact ih.2.2 (containsRuleL_of_mk "expr" "fn_block_expr" txt ch hc)
            · by_cases h4 : rule = "closure_param_list"
              · subst h4
                rw [core_closure_eq] at h
                simp only [Except.ok.injEq] at h
                subst h
                exact ⟨by rw [visit_closure_eq], fun _ => rfl, fun _ => rfl⟩
              · by_cases h5 : rule = "comma_delimited_exprs"
                · subst h5
                  rw [core_comma_eq] at h
                  have ih := core_sim_comma d ch r h
                  refine ⟨?_, ?_, ?_⟩
                  · rw [visit_comma_eq]
                    exact ih.1
                  · intro hc
                    exact ih.2.1 (containsRuleL_of_mk "fn" "comma_delimited_exprs" txt ch hc)
                  · intro hc
                    exact ih.2.2 (containsRuleL_of_mk "expr" "comma_delimited_exprs" txt ch hc)
                · by_cases h6 : rule = "arg_list"
                  · subst h6
                    rw [core_arg_eq] at h
                    cases hv : CoreVerusVisitor.visit_all
                        { d with program := d.program ++ "(" } ch with
                    | error e => rw [hv] at h; simp at h
                    | ok d2 =>
                      rw [hv] at h
                      simp only [Except.ok.injEq] at h
                      subst h
                      have ih := core_sim_all _ ch d2 hv
                      refine ⟨?_, ?_, ?_⟩
                      · rw [visit_arg_eq]
                        show d2.program ++ ")" = _
                        rw [ih.1]
                      · intro hc
                        exact ih.2.1 (containsRuleL_of_mk "fn" "arg_list" txt ch hc)
                      · intro hc
                        exact ih.2.2 (containsRuleL_of_mk "expr" "arg_list" txt ch hc)
                  · by_cases h7 : rule = "COMMENT"
                    · subst h7
                      rw [core_comment_eq] at h
                      simp only [Except.ok.injEq] at h
                      subst h
                      exact ⟨by rw [visit_comment_eq], fun _ => rfl, fun _ => rfl⟩
                    · rw [core_default_eq d rule txt ch k1 k2 h1 h2 h3 h4 h5 h6 h7] at h
                      rw [visit_default_eq d.program rule txt ch h1 h2 h3 h4 h5 h6 h7]
                      unfold CoreVerusVisitor.default_visit at h
                      unfold VerusVisitor.default_visit
                      by_cases he : ch.isEmpty = true
                      · rw [if_pos he] at h
                        rw [if_pos he]
                        simp only [Except.ok.injEq] at h
                        subst h
                        exact ⟨rfl, fun _ => rfl, fun _ => rfl⟩
                      · rw [if_neg he] at h
                        rw [if_neg he]
                        have ih := core_sim_all d ch r h
                        refine ⟨ih.1, ?_, ?_⟩
                        · intro hc
                          exact ih.2.1 (containsRuleL_of_mk "fn" rule txt ch hc)
                        · intro hc
                          exact ih.2.2 (containsRuleL_of_mk "expr" rule txt ch hc)
termination_by sizeOf p

theorem core_sim_all (d : CoreDatum) (ps : List Pair) :
    ∀ r : CoreDatum, CoreVerusVisitor.visit_all d ps = .ok r →
      r.program = VerusVisitor.visit_all d.program ps
      ∧ (containsRuleL "fn" ps = false → r.fn_map = d.fn_map)
      ∧ (containsRuleL "expr" ps = false → r.fn_calls = d.fn_calls) := by
  cases ps with
  | nil =>
    intro r h
    rw [core_visit_all_nil] at h
    simp only [Except.ok.injEq] at h
    subst h
    exact ⟨by rw [visit_all_nil], fun _ => rfl, fun _ => rfl⟩
  | cons p ps =>
    intro r h
    rw [core_visit_all_cons] at h
    cases hv : CoreVerusVisitor.visit d p with
    | error e => rw [hv] at h; simp at h
    | ok d2 =>
      rw [hv] at h
      have ih1 := core_sim_visit d p d2 hv
      have ih2 := core_sim_all d2 ps r h
      refine ⟨?_, ?_, ?_⟩
      · rw [visit_all_cons, ih2.1, ih1.1]
      · intro hc
        rw [containsRuleL_cons] at hc
        rw [ih2.2.1 (orFalseRight hc), ih1.2.1 (orFalseLeft hc)]
      · intro hc
        rw [containsRuleL_cons] at hc
        rw [ih2.2.2 (orFalseRight hc), ih1.2.2 (orFalseLeft hc)]
termination_by sizeOf ps

theorem core_sim_comma (d : CoreDatum) (ps : List Pair) :
    ∀ r : CoreDatum, CoreVerusVisitor.visit_comma_sep d ps = .ok r →
      r.program = VerusVisitor.visit_comma_sep d.program ps
      ∧ (containsRuleL "fn" ps = false → r.fn_map = d.fn_map)
      ∧ (containsRuleL "expr" ps = false → r.fn_calls = d.fn_calls) := by
  cases ps with
  | nil =>
    intro r h
    rw [core_comma_nil] at h
    simp only [Except.ok.injEq] at h
    subst h
    exact ⟨by rw [visit_comma_nil], fun _ => rfl, fun _ => rfl⟩
  | cons p ps =>
    intro r h
    rw [core_comma_cons] at h
    cases hv : CoreVerusVisitor.visit d p with
    | error e => rw [hv] at h; simp at h
    | ok d2 =>
      rw [hv] at h
      have ih1 := core_sim_visit d p d2 hv
      have ih2 := core_sim_comma { d2 with program := d2.program ++ ", " } ps r h
      refine ⟨?_, ?_, ?_⟩
      · rw [visit_comma_cons, ih2.1]
        show VerusVisitor.visit_comma_sep (d2.program ++ ", ") ps = _
        rw [ih1.1]
      · intro hc
        rw [containsRuleL_cons] at hc
        have e2 := ih2.2.1 (orFalseRight hc)
        have e1 := ih1.2.1 (orFalseLeft hc)
        rw [e2]
        exact e1
      · intro hc
        rw [containsRuleL_cons] at hc
        have e2 := ih2.2.2 (orFalseRight hc)
        have e1 := ih1.2.2 (orFalseLeft hc)
        rw [e2]
        exact e1
termination_by sizeOf ps

end

theorem andTrueLeft {a b : Bool} (h : (a && b) = true) : a = true := by
  cases a <;> simp_all

theorem andTrueRight {a b : Bool} (h : (a && b) = true) : b = true := by
  cases a <;> cases b <;> simp_all

mutual

theorem core_ok_visit (d : CoreDatum) (p : Pair) :
    wellNamed p = true → ∃ r : CoreDatum, CoreVerusVisitor.visit d p = .ok r := by
  cases p with
  | mk rule txt ch =>
    intro h
    rw [wellNamed_mk] at h
    have hL : wellNamedL ch = true := andTrueRight h
    have hhd := andTrueLeft h
    by_cases k1 : rule = "fn"
    · subst k1
      have hs : (ch.find? (fun q => q.rule == "name")).isSome = true := by
        simpa using hhd
      obtain ⟨np, hf⟩ := Option.isSome_iff_exists.mp hs
      rw [core_fn_some_eq d txt ch np hf]
      exact core_ok_all _ ch hL
    · by_cases k2 : rule = "expr"
      · subst k2
        have hdef : ∀ d2 : CoreDatum, ∃ r : CoreDatum,
            CoreVerusVisitor.default_visit d2 txt ch = .ok r := by
          intro d2
          unfold CoreVerusVisitor.default_visit
          by_cases he : ch.isEmpty = true
          · rw [if_pos he]; exact ⟨_, rfl⟩
          · rw [if_neg he]; exact core_ok_all d2 ch hL
        rcases hsc : scanExpr ch with ⟨o1, o2⟩
        cases o1 with
        | some f =>
          cases o2 with
          | some args =>
            rw [core_expr_rec_eq d txt ch f args hsc]
            exact hdef _
          | none =>
            rw [core_expr_skip_eq d txt ch (by rw [hsc]; exact Or.inr rfl)]
            exact hdef d
        | none =>
          rw [core_expr_skip_eq d txt ch (by rw [hsc]; exact Or.inl rfl)]
          exact hdef d
      · by_cases h1 : rule = "verus_macro_use"
        · subst h1
          obtain ⟨d2, hv⟩ := core_ok_all
            { d with program := d.program ++ "verus!\x7b\n" } ch hL
          rw [core_macro_eq, hv]
          exact ⟨_, rfl⟩
        · by_cases h2 : rule = "param_list"
          · subst h2
            rw [core_param_eq]
            exact ⟨_, rfl⟩
          · by_cases h3 : rule = "fn_block_expr"
            · subst h3
              obtain ⟨d2, hv⟩ := core_ok_all
                { d with program := d.program ++ "\n \x7b" } ch hL
              rw [core_fn_block_eq, hv]
              exact ⟨_, rfl⟩
            · by_cases h4 : rule = "closure_param_list"
              · subst h4
                rw [core_closure_eq]
                exact ⟨_, rfl⟩
              · by_cases h5 : rule = "comma_delimited_exprs"
                · subst h5
                  rw [core_comma_eq]
                  exact core_ok_comma d ch hL
                · by_cases h6 : rule = "arg_list"
                  · subst h6
                    obtain ⟨d2, hv⟩ := core_ok_all
                      { d with program := d.program ++ "(" } ch hL
                    rw [core_arg_eq, hv]
                    exact ⟨_, rfl⟩
                  · by_cases h7 : rule = "COMMENT"
                    · subst h7
                      rw [core_comment_eq]
                      exact ⟨_, rfl⟩
                    · rw [core_default_eq d rule txt ch k1 k2 h1 h2 h3 h4 h5 h6 h7]
                      unfold CoreVerusVisitor.default_visit
                      by_cases he : ch.isEmpty = true
                      · rw [if_pos he]; exact ⟨_, rfl⟩
                      · rw [if_neg he]; exact core_ok_all d ch hL
termination_by sizeOf p

theorem core_ok_all (d : CoreDatum) (ps : List Pair) :
    wellNamedL ps = true → ∃ r : CoreDatum, CoreVerusVisitor.visit_all d ps = .ok r := by
  cases ps with
  | nil => intro _; rw [core_visit_all_nil]; exact ⟨_, rfl⟩
  | cons p ps =>
    intro h
    rw [wellNamedL_cons] at h
    obtain ⟨dd, hv⟩ := core_ok_visit d p (andTrueLeft h)
    rw [core_visit_all_cons, hv]
    exact core_ok_all dd ps (andTrueRight h)
termination_by sizeOf ps

theorem core_ok_comma (d : CoreDatum) (ps : List Pair) :
    wellNamedL ps = true → ∃ r : CoreDatum, CoreVerusVisitor.visit_comma_sep d ps = .ok r := by
  cases ps with
  | nil => intro _; rw [core_comma_nil]; exact ⟨_, rfl⟩
  | cons p ps =>
    intro h
    rw [wellNamedL_cons] at h
    obtain ⟨dd, hv⟩ := core_ok_visit d p (andTrueLeft h)
    rw [core_comma_cons, hv]
    exact core_ok_comma { dd with program := dd.program ++ ", " } ps (andTrueRight h)
termination_by sizeOf ps

end

theorem paramJoin_false_concat (ps : List Pair) : ∀ prog : String,
    paramJoin prog false ps = prog ++ concatAll (ps.map (fun p => ", " ++ p.text)) := by
  induction ps with
  | nil => intro prog; simp [paramJoin, concatAll, String.append_empty]
  | cons p ps ih =>
    intro prog
    show paramJoin ((prog ++ ", ") ++ p.text) false ps = _
    rw [ih ((prog ++ ", ") ++ p.text)]
    simp only [List.map_cons, concatAll]
    rw [String.append_assoc prog ", " p.text,
      String.append_assoc prog (", " ++ p.text) (concatAll (ps.map (fun p => ", " ++ p.text)))]

theorem concat_sepJoin (qs : List Pair) : ∀ x : String,
    x ++ concatAll (qs.map (fun p => ", " ++ p.text)) = sepJoin ", " (x :: qs.map Pair.text) := by
  induction qs with
  | nil => intro x; simp [concatAll, sepJoin, String.append_empty]
  | cons q qs ih =>
    intro x
    simp only [List.map_cons, concatAll]
    rw [← String.append_assoc x (", " ++ q.text) (concatAll (qs.map (fun p => ", " ++ p.text))),
      ← String.append_assoc x ", " q.text,
      String.append_assoc (x ++ ", ") q.text (concatAll (qs.map (fun p => ", " ++ p.text))),
      ih q.text]
    show (x ++ ", ") ++ sepJoin ", " (q.text :: qs.map Pair.text) =
      sepJoin ", " (x :: q.text :: qs.map Pair.text)
    rfl

theorem paramJoin_sepJoin (ps : List Pair) (prog : String) :
    paramJoin prog true ps = prog ++ sepJoin ", " (ps.map Pair.text) := by
  cases ps with
  | nil => simp [paramJoin, sepJoin, String.append_empty]
  | cons p ps =>
    show paramJoin (prog ++ p.text) false ps = _
    rw [paramJoin_false_concat ps (prog ++ p.text),
      String.append_assoc prog p.text (concatAll (ps.map (fun p => ", " ++ p.text))),
      concat_sepJoin ps p.text]
    rfl

theorem visit_append_out (prog : String) (p : Pair) :
    VerusVisitor.visit prog p = prog ++ VerusVisitor.visit "" p := by
  have h := visit_shift prog "" p
  rwa [String.append_empty] at h

theorem comma_concat (ps : List Pair) : ∀ prog : String,
    VerusVisitor.visit_comma_sep prog ps =
      prog ++ concatAll (ps.map (fun c => VerusVisitor.visit "" c ++ ", ")) := by
  induction ps with
  | nil => intro prog; rw [visit_comma_nil]; simp [concatAll, String.append_empty]
  | cons p ps ih =>
    intro prog
    rw [visit_comma_cons, ih (VerusVisitor.visit prog p ++ ", "), visit_append_out prog p]
    simp only [List.map_cons, concatAll]
    rw [String.append_assoc prog (VerusVisitor.visit "" p) ", ",
      String.append_assoc prog (VerusVisitor.visit "" p ++ ", ")
        (concatAll (ps.map (fun c => VerusVisitor.visit "" c ++ ", ")))]

theorem visit_all_append (l1 l2 : List Pair) : ∀ prog : String,
    VerusVisitor.visit_all prog (l1 ++ l2) =
      VerusVisitor.visit_all (VerusVisitor.visit_all prog l1) l2 := by
  induction l1 with
  | nil => intro prog; rw [visit_all_nil]; rfl
  | cons p ps ih =>
    intro prog
    rw [List.cons_append, visit_all_cons, visit_all_cons, ih (VerusVisitor.visit prog p)]

theorem scanStep_fst (acc : Option String × Option (List String)) (p : Pair) :
    ((scanStep acc p).1.isSome = true) ↔
      (acc.1.isSome = true ∨ (p.rule = "expr_inner" ∧
        ∃ q, q ∈ p.children ∧ q.rule = "path_expr_no_generics")) := by
  unfold scanStep
  by_cases hr : p.rule = "expr_inner"
  · rw [if_pos (by simp [hr])]
    cases hfind : p.children.find? (fun q => q.rule == "path_expr_no_generics") with
    | some fp =>
      simp only [Option.isSome_some, true_iff]
      refine Or.inr ⟨hr, fp, List.mem_of_find?_eq_some hfind, ?_⟩
      have := List.find?_some hfind
      simpa using this
    | none =>
      have hnone : ∀ q, q ∈ p.children → ¬(q.rule = "path_expr_no_generics") := by
        intro q hq he
        have := List.find?_eq_none.mp hfind q hq
        simp [he] at this
      constructor
      · intro h; exact Or.inl h
      · intro h
        rcases h with h | ⟨_, q, hq, he⟩
        · exact h
        · exact absurd he (hnone q hq)
  · rw [if_neg (by simp [hr])]
    by_cases ha : p.rule = "arg_list"
    · rw [if_pos (by simp [ha])]
      constructor
      · intro h; exact Or.inl h
      · intro h
        rcases h with h | ⟨he, _⟩
        · exact h
        · exact absurd he hr
    · rw [if_neg (by simp [ha])]
      constructor
      · intro h; exact Or.inl h
      · intro h
        rcases h with h | ⟨he, _⟩
        · exact h
        · exact absurd he hr

theorem scanStep_snd (acc : Option String × Option (List String)) (p : Pair) :
    ((scanStep acc p).2.isSome = true) ↔
      (acc.2.isSome = true ∨ p.rule = "arg_list") := by
  unfold scanStep
  by_cases hr : p.rule = "expr_inner"
  · rw [if_pos (by simp [hr])]
    have hna : ¬(p.rule = "arg_list") := by rw [hr]; decide
    cases hfind : p.children.find? (fun q => q.rule == "path_expr_no_generics") with
    | some fp =>
      constructor
      · intro h; exact Or.inl h
      · intro h
        rcases h with h | ha
        · exact h
        · exact absurd ha hna
    | none =>
      constructor
      · intro h; exact Or.inl h
      · intro h
        rcases h with h | ha
        · exact h
        · exact absurd ha hna
  · rw [if_neg (by simp [hr])]
    by_cases ha : p.rule = "arg_list"
    · rw [if_pos (by simp [ha])]
      simp [ha]
    · rw [if_neg (by simp [ha])]
      constructor
      · intro h; exact Or.inl h
      · intro h
        rcases h with h | h
        · exact h
        · exact absurd h ha

theorem scanFold_fst (ch : List Pair) : ∀ acc : Option String × Option (List String),
    ((ch.foldl scanStep acc).1.isSome = true) ↔
      (acc.1.isSome = true ∨ ∃ p, p ∈ ch ∧ p.rule = "expr_inner" ∧
        ∃ q, q ∈ p.children ∧ q.rule = "path_expr_no_generics") := by
  induction ch with
  | nil => intro acc; simp
  | cons p ps ih =>
    intro acc
    rw [List.foldl_cons, ih (scanStep acc p)]
    rw [scanStep_fst acc p]
    constructor
    · intro h
      rcases h with (h | h) | ⟨w, hw, hrest⟩
      · exact Or.inl h
      · exact Or.inr ⟨p, List.mem_cons_self p ps, h⟩
      · exact Or.inr ⟨w, List.mem_cons_of_mem p hw, hrest⟩
    · intro h
      rcases h with h | ⟨w, hw, hrest⟩
      · exact Or.inl (Or.inl h)
      · rcases List.mem_cons.mp hw with he | hm
        · subst he; exact Or.inl (Or.inr hrest)
        · exact Or.inr ⟨w, hm, hrest⟩

theorem scanFold_snd (ch : List Pair) : ∀ acc : Option String × Option (List String),
    ((ch.foldl scanStep acc).2.isSome = true) ↔
      (acc.2.isSome = true ∨ ∃ p, p ∈ ch ∧ p.rule = "arg_list") := by
  induction ch with
  | nil => intro acc; simp
  | cons p ps ih =>
    intro acc
    rw [List.foldl_cons, ih (scanStep acc p)]
    rw [scanStep_snd acc p]
    constructor
    · intro h
      rcases h with (h | h) | ⟨w, hw, hrest⟩
      · exact Or.inl h
      · exact Or.inr ⟨p, List.mem_cons_self p ps, h⟩
      · exact Or.inr ⟨w, List.mem_cons_of_mem p hw, hrest⟩
    · intro h
      rcases h with h | ⟨w, hw, hrest⟩
      · exact Or.inl (Or.inl h)
      · rcases List.mem_cons.mp hw with he | hm
        · subst he; exact Or.inl (Or.inr hrest)
        · exact Or.inr ⟨w, hm, hrest⟩

theorem scanExpr_fst (ch : List Pair) :
    ((scanExpr ch).1.isSome = true) ↔
      ∃ p, p ∈ ch ∧ p.rule = "expr_inner" ∧
        ∃ q, q ∈ p.children ∧ q.rule = "path_expr_no_generics" := by
  unfold scanExpr
  rw [scanFold_fst ch (none, none)]
  simp

theorem scanExpr_snd (ch : List Pair) :
    ((scanExpr ch).2.isSome = true) ↔ ∃ p, p ∈ ch ∧ p.rule = "arg_list" := by
  unfold scanExpr
  rw [scanFold_snd ch (none, none)]
  simp

theorem core_visit_fn_leaf (d : CoreDatum) (S n : String) :
    CoreVerusVisitor.visit d (.mk "fn" S [.mk "name" n []]) =
      .ok { d with program := d.program ++ n ++ " ",
                   fn_map := fun k => if k == n then some S else d.fn_map k } := rfl

theorem concatAll_append (a b : List String) :
    concatAll (a ++ b) = concatAll a ++ concatAll b := by
  induction a with
  | nil =>
    show concatAll b = "" ++ concatAll b
    rw [String.empty_append]
  | cons s ss ih =>
    show s ++ concatAll (ss ++ b) = (s ++ concatAll ss) ++ concatAll b
    rw [ih, String.append_assoc s (concatAll ss) (concatAll b)]

/-- Claim C1 (counterexample): a COMMENT child of a `param_list` node has
its raw verbatim text emitted into the rebuilt list (the rule copies every
child's `as_str`), and a COMMENT child of a `comma_delimited_exprs` node
still makes that rule emit its two-character trailing separator, so in
both rebuilds a comment contributes a nonzero number of characters,
contrary to the claim; the `closure_param_list` rebuild copies the raw
comment text as well. -/
theorem comment_in_param_list_cex :
    VerusVisitor.visit "" (.mk "param_list" "(/*c*/)" [.mk "COMMENT" "/*c*/" []]) = "(/*c*/)"
    ∧ VerusVisitor.visit "" (.mk "param_list" "()" []) = "()"
    ∧ ("(/*c*/)" : String) ≠ "()"
    ∧ VerusVisitor.visit "" (.mk "comma_delimited_exprs" "/*c*/" [.mk "COMMENT" "/*c*/" []]) =
        ", "
    ∧ VerusVisitor.visit "" (.mk "comma_delimited_exprs" "" []) = ""
    ∧ (", " : String) ≠ ""
    ∧ VerusVisitor.visit "" (.mk "closure_param_list" "|/*c*/|" [.mk "COMMENT" "/*c*/" []]) =
        "|/*c*/|"
    ∧ ("|/*c*/|" : String) ≠ "||" := by
  refine ⟨by decide, by decide, by decide, by decide, by decide, by decide, by decide, by decide⟩

/-- Claim C1 (amended): the registered comment rule appends nothing, so a
comment visited through dispatch — in particular a comment child at any
position of a call argument list — contributes zero characters; but a
comment child at any position of a comma-delimited expression list still
triggers that rule's two-character trailing separator, and a comment child
at any position of a parameter list or closure-parameter list is emitted
as its raw verbatim text (`ct` below) between the canonical separators,
because those two rules copy children literally instead of visiting
them. -/
theorem comment_zero_width_amended :
    ∀ (prog t ct : String) (cch : List Pair) (pre post : List Pair),
    VerusVisitor.visit prog (.mk "COMMENT" t cch) = prog
    ∧ VerusVisitor.visit prog (.mk "arg_list" t (pre ++ .mk "COMMENT" ct cch :: post)) =
        VerusVisitor.visit prog (.mk "arg_list" t (pre ++ post))
    ∧ VerusVisitor.visit prog (.mk "comma_delimited_exprs" t (pre ++ .mk "COMMENT" ct cch :: post)) =
        prog ++ concatAll (pre.map (fun c => VerusVisitor.visit "" c ++ ", ")) ++ ", "
          ++ concatAll (post.map (fun c => VerusVisitor.visit "" c ++ ", "))
    ∧ VerusVisitor.visit prog (.mk "param_list" t (pre ++ .mk "COMMENT" ct cch :: post)) =
        prog ++ "(" ++ sepJoin ", " (pre.map Pair.text ++ ct :: post.map Pair.text) ++ ")"
    ∧ VerusVisitor.visit prog (.mk "closure_param_list" t (pre ++ .mk "COMMENT" ct cch :: post)) =
        prog ++ "|" ++ sepJoin ", " (pre.map Pair.text ++ ct :: post.map Pair.text) ++ "|" := by
  intro prog t ct cch pre post
  refine ⟨visit_comment_eq prog t cch, ?_, ?_, ?_, ?_⟩
  · rw [visit_arg_eq, visit_arg_eq]
    congr 1
    rw [visit_all_append pre (.mk "COMMENT" ct cch :: post) (prog ++ "("),
      visit_all_append pre post (prog ++ "("),
      visit_all_cons, visit_comment_eq]
  · rw [visit_comma_eq, comma_concat]
    rw [List.map_append, List.map_cons, concatAll_append]
    rw [visit_comment_eq, String.empty_append]
    show prog ++ (concatAll (pre.map (fun c => VerusVisitor.visit "" c ++ ", "))
      ++ (", " ++ concatAll (post.map (fun c => VerusVisitor.visit "" c ++ ", ")))) = _
    simp [String.append_assoc, concatAll]
  · rw [visit_param_eq, paramJoin_sepJoin, List.map_append, List.map_cons]
    show ((prog ++ "(")
      ++ sepJoin ", " (pre.map Pair.text ++ ct :: post.map Pair.text)) ++ ")" = _
    simp [String.append_assoc]
  · rw [visit_closure_eq, paramJoin_sepJoin, List.map_append, List.map_cons]
    show ((prog ++ "|")
      ++ sepJoin ", " (pre.map Pair.text ++ ct :: post.map Pair.text)) ++ "|" = _
    simp [String.append_assoc]

/-- Claim C2 (confirmed): a `param_list` node is rebuilt as an opening
parenthesis, the children's raw texts joined by comma-space with no
trailing comma, and a closing parenthesis, regardless of the node's own
source text; a `closure_param_list` is identical with pipe delimiters. -/
theorem param_list_canonicalization :
    ∀ (prog t : String) (ch : List Pair) (a b c : Pair),
    VerusVisitor.visit prog (.mk "param_list" t ch) =
      prog ++ "(" ++ sepJoin ", " (ch.map Pair.text) ++ ")"
    ∧ VerusVisitor.visit prog (.mk "closure_param_list" t ch) =
      prog ++ "|" ++ sepJoin ", " (ch.map Pair.text) ++ "|"
    ∧ VerusVisitor.visit prog (.mk "param_list" t [a, b, c]) =
      prog ++ "(" ++ a.text ++ ", " ++ b.text ++ ", " ++ c.text ++ ")"
    ∧ VerusVisitor.visit prog (.mk "closure_param_list" t [a, b, c]) =
      prog ++ "|" ++ a.text ++ ", " ++ b.text ++ ", " ++ c.text ++ "|" := by
  intro prog t ch a b c
  refine ⟨?_, ?_, ?_, ?_⟩
  · rw [visit_param_eq, paramJoin_sepJoin]
  · rw [visit_closure_eq, paramJoin_sepJoin]
  · rw [visit_param_eq, paramJoin_sepJoin]
    simp [sepJoin, String.append_assoc]
  · rw [visit_closure_eq, paramJoin_sepJoin]
    simp [sepJoin, String.append_assoc]

/-- Claim C3 (confirmed): a `comma_delimited_exprs` node is rebuilt by
recursively visiting each child and appending the separator after every
element, including the last: the output is the concatenation, over the
children in order, of the child's own visit output followed by one
comma-space. -/
theorem comma_delimited_trailing_sep :
    ∀ (prog t : String) (ch : List Pair),
    VerusVisitor.visit prog (.mk "comma_delimited_exprs" t ch) =
      prog ++ concatAll (ch.map (fun c => VerusVisitor.visit "" c ++ ", ")) := by
  intro prog t ch
  rw [visit_comma_eq, comma_concat]

/-- Claim C4 (confirmed): a node whose rule name has no registered handler
falls through to the default rule, which never errors: a childless node
contributes its verbatim text plus a single space, and a node with
children delegates to visiting all children in order, contributing nothing
of its own. -/
theorem default_rule_fallback :
    ∀ (prog rule t : String) (ch : List Pair),
    rule ∉ (["verus_macro_use", "param_list", "fn_block_expr", "closure_param_list",
      "comma_delimited_exprs", "arg_list", "COMMENT"] : List String) →
    VerusVisitor.visit prog (.mk rule t ch) = VerusVisitor.default_visit prog t ch
    ∧ VerusVisitor.default_visit prog t [] = prog ++ t ++ " "
    ∧ (ch ≠ [] → VerusVisitor.default_visit prog t ch = VerusVisitor.visit_all prog ch) := by
  intro prog rule t ch hmem
  have h1 : rule ≠ "verus_macro_use" := fun e => hmem (by rw [e]; simp)
  have h2 : rule ≠ "param_list" := fun e => hmem (by rw [e]; simp)
  have h3 : rule ≠ "fn_block_expr" := fun e => hmem (by rw [e]; simp)
  have h4 : rule ≠ "closure_param_list" := fun e => hmem (by rw [e]; simp)
  have h5 : rule ≠ "comma_delimited_exprs" := fun e => hmem (by rw [e]; simp)
  have h6 : rule ≠ "arg_list" := fun e => hmem (by rw [e]; simp)
  have h7 : rule ≠ "COMMENT" := fun e => hmem (by rw [e]; simp)
  refine ⟨visit_default_eq prog rule t ch h1 h2 h3 h4 h5 h6 h7, rfl, ?_⟩
  · intro hne
    unfold VerusVisitor.default_visit
    have hf : ¬(ch.isEmpty = true) := by
      cases ch with
      | nil => exact absurd rfl hne
      | cons x xs => simp
    rw [if_neg hf]

/-- Claim C4 (witness): the unregistered rule name `ident` at a concrete
leaf exercises the default rule. -/
theorem default_rule_fallback_witness :
    ("ident" ∉ (["verus_macro_use", "param_list", "fn_block_expr", "closure_param_list",
      "comma_delimited_exprs", "arg_list", "COMMENT"] : List String))
    ∧ (VerusVisitor.visit "" (.mk "ident" "x" []) = VerusVisitor.default_visit "" "x" []
       ∧ VerusVisitor.default_visit "" "x" [] = "" ++ "x" ++ " "
       ∧ (([] : List Pair) ≠ [] →
          VerusVisitor.default_visit "" "x" [] = VerusVisitor.visit_all "" [])) :=
  ⟨by decide, default_rule_fallback "" "ident" "x" [] (by decide)⟩

/-- Claim C5 (confirmed): visiting a `fn` node whose children contain a
`name` child records the node's full verbatim text under that name in
`fn_map` — overwriting any previous entry for the same name, so a later
definition wins — and then still visits all children through the registry. -/
theorem fn_definition_extraction :
    ∀ (d : CoreDatum) (S : String) (ch : List Pair) (np : Pair),
    ch.find? (fun q => q.rule == "name") = some np →
    (CoreVerusVisitor.visit d (.mk "fn" S ch) =
      CoreVerusVisitor.visit_all
        { d with fn_map := fun k => if k == np.text then some S else d.fn_map k } ch)
    ∧ ((fun k => if k == np.text then some S else d.fn_map k) np.text = some S)
    ∧ (∀ n S1 S2 : String, ∃ r : CoreDatum,
        CoreVerusVisitor.visit_all d
          [.mk "fn" S1 [.mk "name" n []], .mk "fn" S2 [.mk "name" n []]] = .ok r
        ∧ r.fn_map n = some S2) := by
  intro d S ch np hf
  refine ⟨core_fn_some_eq d S ch np hf, by simp, ?_⟩
  intro n S1 S2
  refine ⟨_, rfl, ?_⟩
  show (fun k => if k == n then some S2 else
    (fun k => if k == n then some S1 else d.fn_map k) k) n = some S2
  simp

/-- Claim C5 (witness): two same-named definitions in one traversal leave
the second body in the table. -/
theorem fn_definition_extraction_witness :
    ∃ r : CoreDatum, CoreVerusVisitor.visit_all initDatum
      [.mk "fn" "fn foo() \x7b 1 \x7d" [.mk "name" "foo" []],
       .mk "fn" "fn foo() \x7b 2 \x7d" [.mk "name" "foo" []]] = .ok r
      ∧ r.fn_map "foo" = some "fn foo() \x7b 2 \x7d" :=
  (fn_definition_extraction initDatum "s" [.mk "name" "x" []] (.mk "name" "x" []) rfl).2.2
    "foo" "fn foo() \x7b 1 \x7d" "fn foo() \x7b 2 \x7d"

set_option maxHeartbeats 1000000 in
/-- Claim C6 (confirmed): a call fact is recorded exactly when the `expr`
node has both an `expr_inner` child containing a `path_expr_no_generics`
grandchild and an `arg_list` child; otherwise nothing is recorded and no
error is raised; in every case the node is still reconstructed through the
default rule; and call sites for one callee accumulate in traversal
order. -/
theorem call_expr_extraction :
    ∀ (d : CoreDatum) (t : String) (ch : List Pair),
    (((scanExpr ch).1.isSome = true) ↔
      ∃ p, p ∈ ch ∧ p.rule = "expr_inner" ∧
        ∃ q, q ∈ p.children ∧ q.rule = "path_expr_no_generics")
    ∧ (((scanExpr ch).2.isSome = true) ↔ ∃ p, p ∈ ch ∧ p.rule = "arg_list")
    ∧ (∀ (f : String) (args : List String), scanExpr ch = (some f, some args) →
        CoreVerusVisitor.visit d (.mk "expr" t ch) =
          CoreVerusVisitor.default_visit
            { d with fn_calls :=
                fun k => if k == f then d.fn_calls k ++ [args] else d.fn_calls k } t ch)
    ∧ ((scanExpr ch).1 = none ∨ (scanExpr ch).2 = none →
        CoreVerusVisitor.visit d (.mk "expr" t ch) = CoreVerusVisitor.default_visit d t ch)
    ∧ (∃ r : CoreDatum, CoreVerusVisitor.visit_all initDatum [barCallA, barCallB] = .ok r
        ∧ r.fn_calls "bar" = [["1", "2"], ["x", "y", "z"]]) := by
  intro d t ch
  refine ⟨scanExpr_fst ch, scanExpr_snd ch, ?_, ?_, ?_⟩
  · intro f args h
    exact core_expr_rec_eq d t ch f args h
  · intro h
    exact core_expr_skip_eq d t ch h
  · refine ⟨{ barDatumA with
        program := "bar (1 2 )bar (x y z )"
        fn_calls := fun k => if k == "bar" then barDatumA.fn_calls k ++ [["x", "y", "z"]]
                             else barDatumA.fn_calls k }, ?_, ?_⟩
    · have hA : CoreVerusVisitor.visit initDatum barCallA = .ok barDatumA := by rfl
      have hB : CoreVerusVisitor.visit barDatumA barCallB =
          .ok { barDatumA with
                program := "bar (1 2 )bar (x y z )"
                fn_calls := fun k => if k == "bar" then barDatumA.fn_calls k ++ [["x", "y", "z"]]
                                     else barDatumA.fn_calls k } := by rfl
      rw [core_visit_all_cons, hA]
      show CoreVerusVisitor.visit_all barDatumA [barCallB] = _
      rw [core_visit_all_cons, hB]
      show CoreVerusVisitor.visit_all _ [] = _
      rw [core_visit_all_nil]
    · show (fun k => if k == "bar" then barDatumA.fn_calls k ++ [["x", "y", "z"]]
          else barDatumA.fn_calls k) "bar" = [["1", "2"], ["x", "y", "z"]]
      simp [barDatumA]

/-- Claim C6 (witness): the call `bar(1, 2)` records its argument texts. -/
theorem call_expr_extraction_witness :
    CoreVerusVisitor.visit initDatum (.mk "expr" "bar(1, 2)" barChA) =
      CoreVerusVisitor.default_visit
        { initDatum with fn_calls :=
            fun k => if k == "bar" then initDatum.fn_calls k ++ [["1", "2"]]
                     else initDatum.fn_calls k }
        "bar(1, 2)" barChA :=
  (call_expr_extraction initDatum "bar(1, 2)" barChA).2.2.1 "bar" ["1", "2"] rfl

/-- Claim C7 (counterexample): a `fn` node lacking a `name` child does not
make extraction fail when it sits inside a `param_list`, whose handler
copies raw child text without visiting: the traversal succeeds, so the
claim's universal fatality over all such nodes is false. -/
theorem nameless_fn_not_fatal_cex :
    (([] : List Pair).find? (fun q => q.rule == "name") = none)
    ∧ ∃ r : CoreDatum, CoreVerusVisitor.visit initDatum
        (.mk "param_list" "(fn q)" [.mk "fn" "fn q" []]) = .ok r :=
  ⟨rfl, ⟨_, rfl⟩⟩

/-- Claim C7 (amended): whenever the traversal actually visits a `fn` node
lacking a `name` child, it aborts with the MalformedInput error and no
result is produced; and this is the only fatal condition: a tree in which
every `fn` node has a `name` child always traverses successfully. A
nameless `fn` node consumed verbatim inside a parameter-list rebuild is
never visited and does not trigger the failure. -/
theorem nameless_fn_fatal_amended :
    ∀ (d : CoreDatum) (t : String) (ch : List Pair) (p : Pair),
    (ch.find? (fun q => q.rule == "name") = none →
      CoreVerusVisitor.visit d (.mk "fn" t ch) = .error "Function must have a name")
    ∧ (wellNamed p = true → ∃ r : CoreDatum, CoreVerusVisitor.visit d p = .ok r) :=
  fun d t ch p => ⟨core_fn_none_eq d t ch, core_ok_visit d p⟩

/-- Claim C7 (witness): a concrete nameless `fn` node fails, and a concrete
well-named tree succeeds. -/
theorem nameless_fn_fatal_amended_witness :
    (CoreVerusVisitor.visit initDatum (.mk "fn" "fn" []) =
      .error "Function must have a name")
    ∧ ∃ r : CoreDatum, CoreVerusVisitor.visit initDatum
        (.mk "fn" "fn f()" [.mk "name" "f" []]) = .ok r :=
  ⟨(nameless_fn_fatal_amended initDatum "fn" [] (.mk "fn" "fn f()" [.mk "name" "f" []])).1 rfl,
   (nameless_fn_fatal_amended initDatum "fn" [] (.mk "fn" "fn f()" [.mk "name" "f" []])).2
     (by decide)⟩

/-- Claim C8 (confirmed): whenever the extraction traversal succeeds, its
reconstructed program text is byte-identical to the plain reconstruction
traversal's output on the same pairs from the same starting text: the
layered extraction handlers add recorded facts without changing the text. -/
theorem extraction_text_equals_reconstruction :
    ∀ (d : CoreDatum) (ps : List Pair) (r : CoreDatum),
    CoreVerusVisitor.visit_all d ps = .ok r →
    r.program = VerusVisitor.visit_all d.program ps :=
  fun d ps r h => (core_sim_all d ps r h).1

/-- Claim C8 (witness): a concrete macro-wrapped leaf yields the same text
under both traversals. -/
theorem extraction_text_equals_reconstruction_witness :
    (⟨"verus!\x7b\nx \x7d\n", fun _ => none, fun _ => []⟩ : CoreDatum).program =
      VerusVisitor.visit_all initDatum.program
        [.mk "verus_macro_use" "verus! \x7b x \x7d" [.mk "lit" "x" []]] :=
  extraction_text_equals_reconstruction initDatum
    [.mk "verus_macro_use" "verus! \x7b x \x7d" [.mk "lit" "x" []]]
    ⟨"verus!\x7b\nx \x7d\n", fun _ => none, fun _ => []⟩ rfl

/-- Claim C9 (confirmed): the extraction traversal is a deterministic
function of the input accumulator and pair list — each invocation builds
the handler registry afresh and threads only the given accumulator, so
equal inputs give equal program text, `fn_map`, and `fn_calls`. -/
theorem extraction_deterministic :
    ∀ (d1 d2 : CoreDatum) (ps1 ps2 : List Pair), d1 = d2 → ps1 = ps2 →
    CoreVerusVisitor.visit_all d1 ps1 = CoreVerusVisitor.visit_all d2 ps2 := by
  intro d1 d2 ps1 ps2 h1 h2
  rw [h1, h2]

/-- Claim C9 (witness): two runs on the same concrete input coincide. -/
theorem extraction_deterministic_witness :
    CoreVerusVisitor.visit_all initDatum [barCallA] =
      CoreVerusVisitor.visit_all initDatum [barCallA] :=
  extraction_deterministic initDatum initDatum [barCallA] [barCallA] rfl rfl

/-- Claim C10 (confirmed): frame conditions of the extraction traversal —
visiting a subtree containing no `fn` node leaves `fn_map` unchanged, and
visiting a subtree containing no `expr` node leaves `fn_calls` unchanged;
only the `fn` handler writes `fn_map` and only the `expr` handler writes
`fn_calls`, while the base handlers touch only the program text. -/
theorem handler_frame_conditions :
    ∀ (d : CoreDatum) (p : Pair) (r : CoreDatum),
    CoreVerusVisitor.visit d p = .ok r →
    (containsRule "fn" p = false → r.fn_map = d.fn_map)
    ∧ (containsRule "expr" p = false → r.fn_calls = d.fn_calls) :=
  fun d p r h => (core_sim_visit d p r h).2

/-- Claim C10 (witness): a leaf with an unregistered rule changes neither
table. -/
theorem handler_frame_conditions_witness :
    ((⟨"x ", fun _ => none, fun _ => []⟩ : CoreDatum).fn_map = initDatum.fn_map)
    ∧ ((⟨"x ", fun _ => none, fun _ => []⟩ : CoreDatum).fn_calls = initDatum.fn_calls) :=
  ⟨(handler_frame_conditions initDatum (.mk "lit" "x" [])
      ⟨"x ", fun _ => none, fun _ => []⟩ rfl).1 rfl,
   (handler_frame_conditions initDatum (.mk "lit" "x" [])
      ⟨"x ", fun _ => none, fun _ => []⟩ rfl).2 rfl⟩
